import Mathlib

/-
  Verification development for the webcrawler repository.

  Shallow embedding of:
  - UrlStore.normalize_url  (src/webcrawler/src/url_store.rs, lines 148-182)
  - UrlStore frontier and visited operations (same file, lines 54-145)
  - HttpClient.fetch size cap logic (src/webcrawler/src/http_client.rs)
  - BufferedWriter flush conditions (src/webcrawler/src/writer.rs)
  - parse_html element and text handlers (src/webcrawler/src/parser.rs)
  - is_media_file and url_validation (src/webcrawler-old/src/parser.rs)

  Strings are modelled as lists of characters.  The WHATWG URL parser of
  the url crate is modelled on its canonical fragment: the model parser
  parseN accepts exactly the strings of the shape
  scheme "://" host path [ "?" query ] [ "#" fragment ] on which
  Url::parse is the identity on components, that is: lowercase ASCII
  scheme and host, a path that starts with a slash, carries no
  percent-encodable characters and no dot segments, and a query without
  characters of the query percent-encode set.  On every other string the
  model parser answers none.  Percent decoding is modelled for
  single-byte code points, which covers the ASCII range on which the
  crate and this model agree.
-/

namespace WebCrawler

/-! ## Character classes of the modelled URL grammar -/

def schemeChar (c : Char) : Bool :=
  decide (97 ≤ c.toNat ∧ c.toNat ≤ 122)

def hostChar (c : Char) : Bool :=
  decide ((97 ≤ c.toNat ∧ c.toNat ≤ 122) ∨ (48 ≤ c.toNat ∧ c.toNat ≤ 57) ∨
    c.toNat = 46 ∨ c.toNat = 45)

def notHostEnd (c : Char) : Bool :=
  decide (¬ (c.toNat = 47 ∨ c.toNat = 63 ∨ c.toNat = 35))

def notPathEnd (c : Char) : Bool :=
  decide (¬ (c.toNat = 63 ∨ c.toNat = 35))

def notHash (c : Char) : Bool :=
  decide (¬ c.toNat = 35)

/-- Characters the url crate leaves untouched in a path of a special URL:
printable ASCII outside the path percent-encode set. -/
def pathChar (c : Char) : Bool :=
  decide (33 ≤ c.toNat ∧ c.toNat ≤ 126 ∧
    c.toNat ≠ 34 ∧ c.toNat ≠ 60 ∧ c.toNat ≠ 62 ∧ c.toNat ≠ 96 ∧
    c.toNat ≠ 35 ∧ c.toNat ≠ 63 ∧ c.toNat ≠ 92 ∧ c.toNat ≠ 123 ∧ c.toNat ≠ 125)

/-- Characters the url crate leaves untouched in a query of a special URL:
printable ASCII outside the query percent-encode set. -/
def qChar (c : Char) : Bool :=
  decide (33 ≤ c.toNat ∧ c.toNat ≤ 126 ∧
    c.toNat ≠ 34 ∧ c.toNat ≠ 35 ∧ c.toNat ≠ 60 ∧ c.toNat ≠ 62 ∧ c.toNat ≠ 39)

/-! ## Substring search, used for the dot-segment side condition -/

def pfxOf : List Char → List Char → Bool
  | [], _ => true
  | _ :: _, [] => false
  | a :: as, b :: bs => a == b && pfxOf as bs

def hasSub (pat : List Char) : List Char → Bool
  | [] => pfxOf pat []
  | c :: r => pfxOf pat (c :: r) || hasSub pat r

/-- The path carries no "." or ".." segment.  The trailing slash sentinel
turns a final dot segment into an inner one, so two substring tests cover
all positions: the path of the grammar always starts with a slash. -/
def noDotSeg (p : List Char) : Bool :=
  !(hasSub "/./".data (p ++ ['/'])) && !(hasSub "/../".data (p ++ ['/']))

/-! ## The URL record and its serialization -/

structure NUrl where
  scheme : List Char
  host : List Char
  path : List Char
  query : Option (List Char)
  frag : Option (List Char)
deriving DecidableEq, Repr

def qfPart (q f : Option (List Char)) : List Char :=
  (match q with
    | some qq => '?' :: qq
    | none => []) ++
  (match f with
    | some ff => '#' :: ff
    | none => [])

def serializeN (u : NUrl) : List Char :=
  u.scheme ++ ':' :: '/' :: '/' :: (u.host ++ (u.path ++ qfPart u.query u.frag))

/-! ## The model parser -/

def qOk : Option (List Char) → Bool
  | some qq => qq.all qChar
  | none => true

def mkUrl (sch host path : List Char) (q f : Option (List Char)) : Option NUrl :=
  if sch.isEmpty then none
  else if !sch.all schemeChar then none
  else if host.isEmpty then none
  else if !host.all hostChar then none
  else if !(path.head? == some '/') then none
  else if !path.all pathChar then none
  else if !noDotSeg path then none
  else if !qOk q then none
  else some ⟨sch, host, path, q, f⟩

def parseQF : List Char → Option (List Char) × Option (List Char)
  | '?' :: qf =>
    (some (qf.takeWhile notHash),
      match qf.dropWhile notHash with
      | '#' :: fr => some fr
      | _ => none)
  | '#' :: fr => (none, some fr)
  | _ => (none, none)

def parsePath (sch host after : List Char) : Option NUrl :=
  let pth := after.takeWhile notPathEnd
  let tl := after.dropWhile notPathEnd
  let path := if pth.isEmpty then ['/'] else pth
  let qf := parseQF tl
  mkUrl sch host path qf.1 qf.2

def parseHost (sch rest : List Char) : Option NUrl :=
  parsePath sch (rest.takeWhile notHostEnd) (rest.dropWhile notHostEnd)

def parseAfterScheme (sch rest0 : List Char) : Option NUrl :=
  match rest0 with
  | ':' :: '/' :: '/' :: rest => parseHost sch rest
  | _ => none

def parseN (cs : List Char) : Option NUrl :=
  parseAfterScheme (cs.takeWhile schemeChar) (cs.dropWhile schemeChar)

/-! ## query_pairs: the form_urlencoded decoder -/

def splitAmp : List Char → List Char → List (List Char)
  | [], acc => [acc.reverse]
  | c :: r, acc => if c == '&' then acc.reverse :: splitAmp r [] else splitAmp r (c :: acc)

def hexVal (c : Char) : Option Nat :=
  if 48 ≤ c.toNat ∧ c.toNat ≤ 57 then some (c.toNat - 48)
  else if 65 ≤ c.toNat ∧ c.toNat ≤ 70 then some (c.toNat - 55)
  else if 97 ≤ c.toNat ∧ c.toNat ≤ 102 then some (c.toNat - 87)
  else none

/-- Plus-as-space replacement combined with percent decoding, as
form_urlencoded does on each key and value.  Multi-byte UTF-8 decode
results are outside the model. -/
def pctPlusDecode : List Char → List Char
  | [] => []
  | '+' :: r => ' ' :: pctPlusDecode r
  | '%' :: h1 :: h2 :: r2 =>
    match hexVal h1, hexVal h2 with
    | some a, some b => Char.ofNat (16 * a + b) :: pctPlusDecode r2
    | _, _ => '%' :: pctPlusDecode (h1 :: h2 :: r2)
  | c :: r => c :: pctPlusDecode r

def splitEq (piece : List Char) : List Char × List Char :=
  (piece.takeWhile (fun c => !(c == '=')),
    (piece.dropWhile (fun c => !(c == '='))).drop 1)

/-- form_urlencoded parse: split on ampersands, skip empty pieces, split
each piece at the first equals sign, decode key and value. -/
def queryPairsStr (q : List Char) : List (List Char × List Char) :=
  ((splitAmp q []).filter (fun p => !p.isEmpty)).map
    (fun p => (pctPlusDecode (splitEq p).1, pctPlusDecode (splitEq p).2))

/-! ## Tracking parameter removal, sorting, re-serialization -/

def trackingParams : List (List Char) :=
  (["utm_source", "utm_medium", "utm_campaign", "utm_term", "utm_content",
    "fbclid", "gclid", "msclkid", "mc_cid", "mc_eid"] : List String).map
    (fun s => s.data)

def filterTracking (ps : List (List Char × List Char)) : List (List Char × List Char) :=
  ps.filter (fun kv => !(trackingParams.contains kv.1))

/-- Byte-lexicographic order on keys, as Rust String cmp gives on the
ASCII range of the model. -/
def keyLe : List Char → List Char → Bool
  | [], _ => true
  | _ :: _, [] => false
  | a :: as, b :: bs => if a < b then true else if b < a then false else keyLe as bs

def insPair (x : List Char × List Char) :
    List (List Char × List Char) → List (List Char × List Char)
  | [] => [x]
  | y :: ys => if keyLe y.1 x.1 then y :: insPair x ys else x :: y :: ys

/-- Stable sort by key, the behaviour of Vec sort_by with a key
comparison. -/
def sortPairs (l : List (List Char × List Char)) : List (List Char × List Char) :=
  l.foldl (fun acc x => insPair x acc) []

def hexDigit (n : Nat) : Char :=
  if n < 10 then Char.ofNat (48 + n) else Char.ofNat (55 + n)

/-- set_query percent encoding of one character: the query set of a
special URL is controls, space, quote, hash, less-than, greater-than and
apostrophe; code points above tilde are also escaped.  Single-byte code
points only, see the header comment. -/
def encQChar (c : Char) : List Char :=
  if c.toNat ≤ 32 ∨ 127 ≤ c.toNat ∨ c.toNat = 34 ∨ c.toNat = 35 ∨
      c.toNat = 60 ∨ c.toNat = 62 ∨ c.toNat = 39 then
    ['%', hexDigit (c.toNat / 16 % 16), hexDigit (c.toNat % 16)]
  else [c]

def encodeQuery : List Char → List Char
  | [] => []
  | c :: r => encQChar c ++ encodeQuery r

/-- The raw string the Rust code builds with format and join before
handing it to set_query. -/
def joinAmp : List (List Char × List Char) → List Char
  | [] => []
  | [p] => p.1 ++ '=' :: p.2
  | p :: q :: rest => p.1 ++ '=' :: p.2 ++ '&' :: joinAmp (q :: rest)

/-! ## normalize_url -/

def normPairs (u : NUrl) : List (List Char × List Char) :=
  sortPairs (filterTracking (queryPairsStr (u.query.getD [])))

def normQuery (u : NUrl) : Option (List Char) :=
  let ps := normPairs u
  if ps.isEmpty then none else some (encodeQuery (joinAmp ps))

/-- Fragment cleared, tracking keys dropped, remaining pairs sorted by
key and re-serialized, exactly the query handling of normalize_url. -/
def normCore (u : NUrl) : NUrl :=
  { u with frag := none, query := normQuery u }

def countSlash (cs : List Char) : Nat := cs.count '/'

/-- The deep trailing slash strip: drop a final slash when the string
holds more than three slashes. -/
def popSlash (cs : List Char) : List Char :=
  if cs.getLast? == some '/' ∧ 3 < countSlash cs then cs.dropLast else cs

def normalizeChars (cs : List Char) : List Char :=
  match parseN cs with
  | none => cs
  | some u => popSlash (serializeN (normCore u))

/-- UrlStore::normalize_url.  A string the model parser rejects is
returned unchanged, as Url::parse failure is in the Rust code. -/
def normalize_url (s : String) : String :=
  String.mk (normalizeChars s.data)

/-! ## Side conditions of the amended idempotence claim -/

def wellFormedB (u : NUrl) : Bool :=
  !u.scheme.isEmpty && (u.scheme.all schemeChar && (!u.host.isEmpty &&
    (u.host.all hostChar && ((u.path.head? == some '/') &&
    (u.path.all pathChar && (noDotSeg u.path &&
    (qOk u.query && (u.frag == none))))))))

/-- Stability of the trailing slash strip: either it does not fire on
the normalized serialization, or the URL has no query left and the strip
does not fire a second time. -/
def popSafeB (u : NUrl) : Bool :=
  (popSlash (serializeN (normCore u)) == serializeN (normCore u)) ||
  (((normCore u).query == none) &&
    (popSlash (popSlash (serializeN (normCore u))) ==
      popSlash (serializeN (normCore u))))

/-- The hypotheses under which idempotence is proved: the re-encoded
query reparses to the same filtered sorted pair list, and the slash
strip is stable. -/
def normGoodB (s : String) : Bool :=
  match parseN s.data with
  | none => true
  | some u =>
    (queryPairsStr ((normQuery u).getD []) == normPairs u) && popSafeB u

/-! ## takeWhile and dropWhile over an append -/

theorem tw_of_append (p : Char → Bool) (l r : List Char)
    (hl : ∀ c ∈ l, p c = true)
    (hr : ∀ c, r.head? = some c → p c = false) :
    (l ++ r).takeWhile p = l ∧ (l ++ r).dropWhile p = r := by
  induction l with
  | nil =>
    simp only [List.nil_append]
    cases r with
    | nil => simp
    | cons c t =>
      have hc := hr c rfl
      simp [List.takeWhile_cons, List.dropWhile_cons, hc]
  | cons a l ih =>
    have ha := hl a (by simp)
    have ih' := ih (fun c hc => hl c (by simp [hc]))
    simp [List.takeWhile_cons, List.dropWhile_cons, ha, ih'.1, ih'.2]

/-! ## Substring monotonicity -/

theorem pfxOf_append {pat l : List Char} (m : List Char)
    (h : pfxOf pat l = true) : pfxOf pat (l ++ m) = true := by
  induction pat generalizing l with
  | nil => simp [pfxOf]
  | cons a as ih =>
    cases l with
    | nil => simp [pfxOf] at h
    | cons b bs =>
      simp only [pfxOf, Bool.and_eq_true] at h
      simp only [List.cons_append, pfxOf, Bool.and_eq_true]
      exact ⟨h.1, ih h.2⟩

theorem pfxOf_nil {pat : List Char} (h : pfxOf pat [] = true) : pat = [] := by
  cases pat with
  | nil => rfl
  | cons a as => simp [pfxOf] at h

theorem hasSub_append {pat l : List Char} (m : List Char)
    (h : hasSub pat l = true) : hasSub pat (l ++ m) = true := by
  induction l with
  | nil =>
    have : pat = [] := pfxOf_nil (by simpa [hasSub] using h)
    subst this
    cases m with
    | nil => simp [hasSub, pfxOf]
    | cons c t => simp [hasSub, pfxOf]
  | cons c t ih =>
    simp only [hasSub, Bool.or_eq_true] at h
    rcases h with h | h
    · simp only [List.cons_append, hasSub, Bool.or_eq_true]
      exact Or.inl (pfxOf_append m h)
    · simp only [List.cons_append, hasSub, Bool.or_eq_true]
      exact Or.inr (ih h)

/-- Dropping a final slash of a dot-free path keeps it dot-free. -/
theorem noDotSeg_dropSlash {p : List Char} (hp : noDotSeg (p ++ ['/']) = true) :
    noDotSeg p = true := by
  have key : ∀ pat : List Char, hasSub pat ((p ++ ['/']) ++ ['/']) = false →
      hasSub pat (p ++ ['/']) = false := by
    intro pat hfalse
    cases h : hasSub pat (p ++ ['/'])
    · rfl
    · rw [hasSub_append ['/'] h] at hfalse
      simp at hfalse
  simp only [noDotSeg, Bool.and_eq_true, Bool.not_eq_true'] at hp ⊢
  exact ⟨key _ hp.1, key _ hp.2⟩

/-! ## Character class implications -/

theorem hostChar_notHostEnd {c : Char} (h : hostChar c = true) :
    notHostEnd c = true := by
  simp only [hostChar, decide_eq_true_eq] at h
  simp only [notHostEnd, decide_eq_true_eq]
  omega

theorem pathChar_notPathEnd {c : Char} (h : pathChar c = true) :
    notPathEnd c = true := by
  simp only [pathChar, decide_eq_true_eq] at h
  simp only [notPathEnd, decide_eq_true_eq]
  omega

theorem qChar_notHash {c : Char} (h : qChar c = true) :
    notHash c = true := by
  simp only [qChar, decide_eq_true_eq] at h
  simp only [notHash, decide_eq_true_eq]
  omega

theorem schemeChar_no_slash {c : Char} (h : schemeChar c = true) :
    c ≠ '/' := by
  simp only [schemeChar, decide_eq_true_eq] at h
  intro hc
  subst hc
  simp at h

theorem hostChar_no_slash {c : Char} (h : hostChar c = true) :
    c ≠ '/' := by
  simp only [hostChar, decide_eq_true_eq] at h
  intro hc
  subst hc
  revert h
  decide

/-! ## The re-encoded query stays in the query character class -/

theorem hexDigit_qChar {n : Nat} (h : n < 16) : qChar (hexDigit n) = true := by
  interval_cases n <;> decide

theorem encQChar_qChar {c d : Char} (h : d ∈ encQChar c) : qChar d = true := by
  unfold encQChar at h
  split at h
  · simp only [List.mem_cons, List.not_mem_nil, or_false] at h
    rcases h with h | h | h
    · subst h; decide
    · subst h; exact hexDigit_qChar (Nat.mod_lt _ (by omega))
    · subst h; exact hexDigit_qChar (Nat.mod_lt _ (by omega))
  · rename_i hc
    simp only [List.mem_cons, List.not_mem_nil, or_false] at h
    subst h
    simp only [qChar, decide_eq_true_eq]
    push_neg at hc
    omega

theorem encodeQuery_all (cs : List Char) : (encodeQuery cs).all qChar = true := by
  induction cs with
  | nil => simp [encodeQuery]
  | cons c r ih =>
    simp only [encodeQuery, List.all_append, Bool.and_eq_true]
    exact ⟨List.all_eq_true.mpr (fun d hd => encQChar_qChar hd), ih⟩

/-! ## What a successful parse guarantees -/

theorem mkUrl_wf {sch host path : List Char} {q f : Option (List Char)} {u : NUrl}
    (h : mkUrl sch host path q f = some u) :
    u = ⟨sch, host, path, q, f⟩ ∧ sch.isEmpty = false ∧
    sch.all schemeChar = true ∧ host.isEmpty = false ∧
    host.all hostChar = true ∧ (path.head? == some '/') = true ∧
    path.all pathChar = true ∧ noDotSeg path = true ∧ qOk q = true := by
  unfold mkUrl at h
  repeat' split at h
  all_goals simp_all

theorem parseN_wf {cs : List Char} {u : NUrl} (h : parseN cs = some u) :
    u.scheme.isEmpty = false ∧ u.scheme.all schemeChar = true ∧
    u.host.isEmpty = false ∧ u.host.all hostChar = true ∧
    (u.path.head? == some '/') = true ∧ u.path.all pathChar = true ∧
    noDotSeg u.path = true := by
  unfold parseN parseAfterScheme at h
  split at h
  · rename_i rest heq
    unfold parseHost parsePath at h
    obtain ⟨hu, h1, h2, h3, h4, h5, h6, h7, _⟩ := mkUrl_wf h
    subst hu
    exact ⟨h1, h2, h3, h4, h5, h6, h7⟩
  · exact absurd h (by simp)

/-! ## Serialization round trip -/

theorem parse_serialize {u : NUrl} (h : wellFormedB u = true) :
    parseN (serializeN u) = some u := by
  obtain ⟨sch, host, path, q, f⟩ := u
  simp only [wellFormedB, Bool.and_eq_true, Bool.not_eq_true'] at h
  obtain ⟨hse, hsa, hhe, hha, hph, hpa, hnd, hq, hf⟩ := h
  have hf' : f = none := by
    cases f
    · rfl
    · simp at hf
  subst hf'
  have hph' : path.head? = some '/' := by simpa using hph
  obtain ⟨pt, rfl⟩ : ∃ pt, path = '/' :: pt := by
    cases path with
    | nil => simp at hph'
    | cons a t =>
      refine ⟨t, ?_⟩
      simp only [List.head?_cons, Option.some.injEq] at hph'
      rw [hph']
  have hsa' := List.all_eq_true.mp hsa
  have hha' := List.all_eq_true.mp hha
  have hpa' := List.all_eq_true.mp hpa
  -- step 1: scheme
  have s1 := tw_of_append schemeChar sch
      (':' :: '/' :: '/' :: (host ++ ('/' :: pt ++ qfPart q none)))
      (fun c hc => hsa' c hc)
      (fun c hc => by
        simp only [List.head?_cons, Option.some.injEq] at hc
        subst hc
        decide)
  -- step 2: host
  have s2 := tw_of_append notHostEnd host ('/' :: pt ++ qfPart q none)
      (fun c hc => hostChar_notHostEnd (hha' c hc))
      (fun c hc => by
        simp only [List.cons_append, List.head?_cons, Option.some.injEq] at hc
        subst hc
        decide)
  -- step 3: path
  have s3 := tw_of_append notPathEnd ('/' :: pt) (qfPart q none)
      (fun c hc => pathChar_notPathEnd (hpa' c hc))
      (fun c hc => by
        cases q with
        | none => simp [qfPart] at hc
        | some qq =>
          simp only [qfPart, List.append_nil, List.head?_cons,
            Option.some.injEq] at hc
          subst hc
          decide)
  unfold serializeN parseN
  rw [s1.1, s1.2]
  rw [show parseAfterScheme sch
      (':' :: '/' :: '/' :: (host ++ ('/' :: pt ++ qfPart q none))) =
      parseHost sch (host ++ ('/' :: pt ++ qfPart q none)) from rfl]
  unfold parseHost
  rw [s2.1, s2.2]
  unfold parsePath
  rw [s3.1, s3.2]
  simp only [List.isEmpty_cons, Bool.false_eq_true, if_false]
  cases q with
  | none =>
    simp only [qfPart, List.append_nil, parseQF]
    unfold mkUrl
    simp [hse, hsa, hhe, hha, hpa, hnd, qOk]
  | some qq =>
    have hqa' := List.all_eq_true.mp (by simpa [qOk] using hq)
    have s4 := tw_of_append notHash qq []
        (fun c hc => qChar_notHash (hqa' c hc))
        (fun c hc => by simp at hc)
    simp only [qfPart, List.append_nil, parseQF]
    rw [show qq ++ ([] : List Char) = qq from List.append_nil qq] at s4
    rw [s4.1, s4.2]
    unfold mkUrl
    simp [hse, hsa, hhe, hha, hpa, hnd, qOk, hq]
    exact hqa'

/-! ## The stable insertion sort: order facts -/

theorem keyLe_total (a b : List Char) : keyLe a b = true ∨ keyLe b a = true := by
  induction a generalizing b with
  | nil => left; rfl
  | cons x xs ih =>
    cases b with
    | nil => right; rfl
    | cons y ys =>
      by_cases hxy : x < y
      · left
        simp [keyLe, hxy]
      · by_cases hyx : y < x
        · right
          simp [keyLe, hyx, asymm hyx]
        · have hxy' : ¬ y < x := hyx
          rcases ih ys with h | h
          · left
            simp [keyLe, hxy, hyx, h]
          · right
            simp [keyLe, hxy, hyx, h]

theorem keyLe_trans {a b c : List Char} (h1 : keyLe a b = true)
    (h2 : keyLe b c = true) : keyLe a c = true := by
  induction a generalizing b c with
  | nil => rfl
  | cons x xs ih =>
    cases b with
    | nil => simp [keyLe] at h1
    | cons y ys =>
      cases c with
      | nil => simp [keyLe] at h2
      | cons z zs =>
        simp only [keyLe] at h1 h2 ⊢
        by_cases hxy : x < y
        · by_cases hyz : y < z
          · simp [lt_trans hxy hyz]
          · by_cases hzy : z < y
            · rw [if_neg hyz, if_pos hzy] at h2
              exact absurd h2 (by simp)
            · have hyeq : y = z := le_antisymm (not_lt.mp hzy) (not_lt.mp hyz)
              subst hyeq
              simp [hxy]
        · by_cases hyx : y < x
          · rw [if_neg hxy, if_pos hyx] at h1
            exact absurd h1 (by simp)
          · have hxy' : x = y := le_antisymm (not_lt.mp hyx) (not_lt.mp hxy)
            subst hxy'
            rw [if_neg hxy, if_neg hyx] at h1
            by_cases hxz : x < z
            · simp [hxz]
            · by_cases hzx : z < x
              · rw [if_neg hxz, if_pos hzx] at h2
                exact absurd h2 (by simp)
              · rw [if_neg hxz, if_neg hzx] at h2 ⊢
                exact ih h1 h2

def SortedKey (l : List (List Char × List Char)) : Prop :=
  List.Pairwise (fun a b => keyLe a.1 b.1 = true) l

theorem mem_insPair {x y : List Char × List Char}
    {l : List (List Char × List Char)} (h : y ∈ insPair x l) :
    y = x ∨ y ∈ l := by
  induction l with
  | nil => simpa [insPair] using h
  | cons z zs ih =>
    unfold insPair at h
    split at h
    · rcases List.mem_cons.mp h with h | h
      · right; simp [h]
      · rcases ih h with h | h
        · left; exact h
        · right; simp [h]
    · rcases List.mem_cons.mp h with h | h
      · left; exact h
      · right; exact h

theorem sorted_insPair {x : List Char × List Char}
    {l : List (List Char × List Char)} (h : SortedKey l) :
    SortedKey (insPair x l) := by
  induction l with
  | nil => simp [insPair, SortedKey]
  | cons z zs ih =>
    rcases List.pairwise_cons.mp h with ⟨hz, hzs⟩
    unfold insPair
    split
    · rename_i hle
      refine List.pairwise_cons.mpr ⟨?_, ih hzs⟩
      intro y hy
      rcases mem_insPair hy with rfl | hy
      · exact hle
      · exact hz y hy
    · rename_i hnle
      have hxz : keyLe x.1 z.1 = true := by
        rcases keyLe_total z.1 x.1 with h | h
        · exact absurd h hnle
        · exact h
      refine List.pairwise_cons.mpr ⟨?_, h⟩
      intro y hy
      rcases List.mem_cons.mp hy with rfl | hy
      · exact hxz
      · exact keyLe_trans hxz (hz y hy)

theorem sorted_foldl_ins {l acc : List (List Char × List Char)}
    (h : SortedKey acc) :
    SortedKey (l.foldl (fun acc x => insPair x acc) acc) := by
  induction l generalizing acc with
  | nil => exact h
  | cons x xs ih => exact ih (sorted_insPair h)

theorem sorted_sortPairs (l : List (List Char × List Char)) :
    SortedKey (sortPairs l) :=
  sorted_foldl_ins (by simp [SortedKey])

theorem mem_foldl_ins {y : List Char × List Char}
    {l acc : List (List Char × List Char)}
    (h : y ∈ l.foldl (fun acc x => insPair x acc) acc) :
    y ∈ acc ∨ y ∈ l := by
  induction l generalizing acc with
  | nil => exact Or.inl h
  | cons x xs ih =>
    rcases ih h with h | h
    · rcases mem_insPair h with rfl | h
      · right; simp
      · left; exact h
    · right; simp [h]

theorem mem_sortPairs {y : List Char × List Char}
    {l : List (List Char × List Char)} (h : y ∈ sortPairs l) : y ∈ l := by
  rcases mem_foldl_ins h with h | h
  · simp at h
  · exact h

theorem insPair_append {x : List Char × List Char}
    {l : List (List Char × List Char)}
    (h : ∀ y ∈ l, keyLe y.1 x.1 = true) : insPair x l = l ++ [x] := by
  induction l with
  | nil => rfl
  | cons z zs ih =>
    unfold insPair
    rw [if_pos (h z (by simp))]
    rw [ih (fun y hy => h y (by simp [hy]))]
    rfl

theorem sortPairs_of_sorted {l : List (List Char × List Char)}
    (h : SortedKey l) : sortPairs l = l := by
  induction l using List.reverseRecOn with
  | nil => rfl
  | append_singleton l x ih =>
    rcases List.pairwise_append.mp h with ⟨hl, _, hcross⟩
    have step : sortPairs (l ++ [x]) = insPair x (sortPairs l) := by
      unfold sortPairs
      rw [List.foldl_append]
      rfl
    rw [step, ih hl, insPair_append (fun y hy => hcross y hy x (by simp))]

/-! ## Stability of the normalized query -/

theorem filterTracking_normPairs (u : NUrl) :
    filterTracking (normPairs u) = normPairs u := by
  unfold filterTracking
  apply List.filter_eq_self.mpr
  intro y hy
  have hy2 : y ∈ filterTracking (queryPairsStr (u.query.getD [])) := by
    have hy' : y ∈ sortPairs (filterTracking (queryPairsStr (u.query.getD []))) := by
      simpa [normPairs] using hy
    exact mem_sortPairs hy'
  unfold filterTracking at hy2
  exact (List.mem_filter.mp hy2).2

theorem normCore_idem (u : NUrl)
    (hst : queryPairsStr ((normQuery u).getD []) = normPairs u) :
    normCore (normCore u) = normCore u := by
  have hps : normPairs (normCore u) = normPairs u := by
    have hq2 : (normCore u).query = normQuery u := rfl
    unfold normPairs
    rw [hq2, hst]
    rw [show filterTracking (normPairs u) = normPairs u from
      filterTracking_normPairs u]
    exact sortPairs_of_sorted (sorted_sortPairs _)
  have hq : normQuery (normCore u) = normQuery u := by
    unfold normQuery
    rw [hps]
  calc normCore (normCore u)
      = ⟨u.scheme, u.host, u.path, normQuery (normCore u), none⟩ := rfl
    _ = ⟨u.scheme, u.host, u.path, normQuery u, none⟩ := by rw [hq]
    _ = normCore u := rfl

theorem normQuery_eq (u : NUrl) :
    normQuery u = if (normPairs u).isEmpty then none
      else some (encodeQuery (joinAmp (normPairs u))) := rfl

theorem normQuery_of_none {u : NUrl} (h : u.query = none) :
    normQuery u = none := by
  unfold normQuery normPairs
  rw [h]
  rfl

theorem normCore_of_plain {u : NUrl} (hq : u.query = none) (hf : u.frag = none) :
    normCore u = u := by
  calc normCore u = ⟨u.scheme, u.host, u.path, normQuery u, none⟩ := rfl
    _ = ⟨u.scheme, u.host, u.path, u.query, u.frag⟩ := by
        rw [normQuery_of_none hq, hq, hf]
    _ = u := rfl

theorem wf_normCore {cs : List Char} {u : NUrl} (h : parseN cs = some u) :
    wellFormedB (normCore u) = true := by
  obtain ⟨h1, h2, h3, h4, h5, h6, h7⟩ := parseN_wf h
  have hsc : (normCore u).scheme = u.scheme := rfl
  have hho : (normCore u).host = u.host := rfl
  have hpa : (normCore u).path = u.path := rfl
  have hfr : (normCore u).frag = none := rfl
  have hqo : qOk (normCore u).query = true := by
    have hq2 : (normCore u).query = normQuery u := rfl
    rw [hq2]
    cases hnq : normQuery u with
    | none => rfl
    | some qs =>
      rw [normQuery_eq] at hnq
      split at hnq
      · exact absurd hnq (by simp)
      · simp only [Option.some.injEq] at hnq
        subst hnq
        simpa [qOk] using encodeQuery_all (joinAmp (normPairs u))
  unfold wellFormedB
  rw [hsc, hho, hpa, hfr]
  simp [h1, h2, h3, h4, h5, h6, h7, hqo]

/-! ## The fixed point computation for the two pop cases -/

theorem normalizeChars_caseA (u : NUrl) (hwf : wellFormedB (normCore u) = true)
    (hcc : normCore (normCore u) = normCore u)
    (hA : popSlash (serializeN (normCore u)) = serializeN (normCore u)) :
    normalizeChars (popSlash (serializeN (normCore u))) =
      popSlash (serializeN (normCore u)) := by
  rw [hA]
  unfold normalizeChars
  rw [parse_serialize hwf]
  show popSlash (serializeN (normCore (normCore u))) = serializeN (normCore u)
  rw [hcc, hA]

theorem getLast?_append_right {l m : List Char} (h : m ≠ []) :
    (l ++ m).getLast? = m.getLast? := by
  induction l with
  | nil => rfl
  | cons a t ih =>
    rw [List.cons_append, List.getLast?_cons, ih]
    cases m with
    | nil => exact absurd rfl h
    | cons b s => simp [List.getLast?_cons]

theorem count_eq_zero_of_all {p : Char → Bool} {l : List Char} {c : Char}
    (hall : l.all p = true) (hc : p c = false) : l.count c = 0 := by
  apply List.count_eq_zero.mpr
  intro hmem
  have := List.all_eq_true.mp hall c hmem
  rw [hc] at this
  exact absurd this (by simp)

theorem normalizeChars_caseB (u2 : NUrl) (hwf : wellFormedB u2 = true)
    (hq : u2.query = none)
    (hlast : (serializeN u2).getLast? = some '/')
    (hcnt : 3 < countSlash (serializeN u2))
    (hstable : popSlash ((serializeN u2).dropLast) = (serializeN u2).dropLast) :
    normalizeChars ((serializeN u2).dropLast) = (serializeN u2).dropLast := by
  obtain ⟨sch, host, path, q, f⟩ := u2
  simp only at hq
  subst hq
  simp only [wellFormedB, Bool.and_eq_true, Bool.not_eq_true'] at hwf
  obtain ⟨hse, hsa, hhe, hha, hph, hpa, hnd, _, hf⟩ := hwf
  have hf' : f = none := by
    cases f
    · rfl
    · simp at hf
  subst hf'
  have hser : serializeN ⟨sch, host, path, none, none⟩ =
      sch ++ ([':', '/', '/'] ++ (host ++ path)) := by
    simp [serializeN, qfPart]
  have hpne : path ≠ [] := by
    intro hpe
    rw [hpe] at hph
    simp at hph
  -- the final character of the serialization is the final character of path
  have hlastp : path.getLast? = some '/' := by
    have step1 : (sch ++ ([':', '/', '/'] ++ (host ++ path))).getLast? =
        ([':', '/', '/'] ++ (host ++ path)).getLast? :=
      getLast?_append_right (by simp [hpne])
    have step2 : (([':', '/', '/'] : List Char) ++ (host ++ path)).getLast? =
        (host ++ path).getLast? := getLast?_append_right (by simp [hpne])
    have step3 : (host ++ path).getLast? = path.getLast? :=
      getLast?_append_right hpne
    rw [hser, step1, step2, step3] at hlast
    exact hlast
  -- path ends with a slash
  have hsplit : path.dropLast ++ ['/'] = path := by
    have h1 := List.dropLast_append_getLast hpne
    have h2 : path.getLast hpne = '/' := by
      have := List.getLast?_eq_getLast path hpne
      rw [this] at hlastp
      exact (Option.some.injEq _ _).mp hlastp
    rw [h2] at h1
    exact h1
  -- slash counting: scheme and host carry no slash
  have hcsch : sch.count '/' = 0 := count_eq_zero_of_all hsa (by decide)
  have hchost : host.count '/' = 0 := by
    apply List.count_eq_zero.mpr
    intro hmem
    exact hostChar_no_slash (List.all_eq_true.mp hha _ hmem) rfl
  have hcp : 1 < path.count '/' := by
    have hlit : ([':', '/', '/'] : List Char).count '/' = 2 := by decide
    rw [hser] at hcnt
    simp only [countSlash, List.count_append, hcsch, hchost, hlit] at hcnt
    omega
  have hlen2 : 2 ≤ path.length := by
    have := List.count_le_length '/' path
    omega
  -- head of the shortened path is still a slash
  have hph' : path.head? = some '/' := by simpa using hph
  obtain ⟨pt, rfl⟩ : ∃ pt, path = '/' :: pt := by
    cases path with
    | nil => exact absurd rfl hpne
    | cons a t =>
      refine ⟨t, ?_⟩
      simp only [List.head?_cons, Option.some.injEq] at hph'
      rw [hph']
  have hptne : pt ≠ [] := by
    intro hpe
    rw [hpe] at hlen2
    simp at hlen2
  have hdlhead : (('/' :: pt).dropLast).head? = some '/' := by
    cases pt with
    | nil => exact absurd rfl hptne
    | cons b s => simp [List.dropLast_cons₂]
  -- the shortened URL record
  have hwf3 : wellFormedB ⟨sch, host, ('/' :: pt).dropLast, none, none⟩ = true := by
    unfold wellFormedB
    simp only [Bool.and_eq_true, Bool.not_eq_true']
    refine ⟨hse, hsa, hhe, hha, by simp [hdlhead], ?_, ?_, rfl, rfl⟩
    · apply List.all_eq_true.mpr
      intro c hc
      exact List.all_eq_true.mp hpa c (List.dropLast_sublist _ |>.subset hc)
    · exact noDotSeg_dropSlash (by rw [hsplit]; exact hnd)
  -- the dropped serialization is the serialization of the shortened record
  have hdrop : (serializeN ⟨sch, host, '/' :: pt, none, none⟩).dropLast =
      serializeN ⟨sch, host, ('/' :: pt).dropLast, none, none⟩ := by
    have hne : serializeN ⟨sch, host, '/' :: pt, none, none⟩ =
        (sch ++ ([':', '/', '/'] ++ (host ++ ('/' :: pt).dropLast))) ++ ['/'] := by
      rw [hser]
      conv_lhs => rw [← hsplit]
      simp [List.append_assoc]
    rw [hne, List.dropLast_concat]
    simp [serializeN, qfPart]
  rw [hdrop]
  unfold normalizeChars
  rw [parse_serialize hwf3]
  show popSlash (serializeN (normCore ⟨sch, host, ('/' :: pt).dropLast, none, none⟩)) =
    serializeN ⟨sch, host, ('/' :: pt).dropLast, none, none⟩
  rw [normCore_of_plain rfl rfl]
  rw [hdrop] at hstable
  exact hstable

/-! ## Claim C2 -/

/-- C2 counterexample: normalize_url is not idempotent.  On the input
"http://a.com/b//" the first application strips one trailing slash and
yields "http://a.com/b/", on which the deep-trailing-slash rule fires
again, so the second application yields "http://a.com/b". -/
theorem c2_normalize_not_idempotent :
    normalize_url (normalize_url "http://a.com/b//") ≠
      normalize_url "http://a.com/b//" ∧
    normalize_url "http://a.com/b//" = "http://a.com/b/" ∧
    normalize_url (normalize_url "http://a.com/b//") = "http://a.com/b" := by
  refine ⟨?_, by decide, by decide⟩
  decide

/-- C2 amended: normalize(normalize(u)) = normalize(u) holds for every
string u that the parser rejects, and for every parsed URL such that the
re-encoded query string reparses to the same filtered sorted pair list
and the deep-trailing-slash strip is stable (either it does not fire on
the normalized serialization, or the normalized URL has no query and the
strip does not fire a second time after firing once).  The unconditional
claim is false, see the counterexample. -/
theorem c2_normalize_idempotent_amended (s : String) (h : normGoodB s = true) :
    normalize_url (normalize_url s) = normalize_url s := by
  suffices hh : normalizeChars (normalizeChars s.data) = normalizeChars s.data by
    unfold normalize_url
    show String.mk (normalizeChars (String.mk (normalizeChars s.data)).data) = _
    rw [show (String.mk (normalizeChars s.data)).data = normalizeChars s.data from rfl]
    rw [hh]
  unfold normGoodB at h
  cases hp : parseN s.data with
  | none =>
    have h1 : normalizeChars s.data = s.data := by
      unfold normalizeChars
      rw [hp]
    rw [h1, h1]
  | some u =>
    rw [hp] at h
    simp only [Bool.and_eq_true, beq_iff_eq] at h
    obtain ⟨hst, hpop⟩ := h
    have hwf : wellFormedB (normCore u) = true := wf_normCore hp
    have hcc : normCore (normCore u) = normCore u := normCore_idem u hst
    have hout : normalizeChars s.data = popSlash (serializeN (normCore u)) := by
      unfold normalizeChars
      rw [hp]
    rw [hout]
    unfold popSafeB at hpop
    simp only [Bool.or_eq_true, Bool.and_eq_true, beq_iff_eq] at hpop
    by_cases hA : popSlash (serializeN (normCore u)) = serializeN (normCore u)
    · exact normalizeChars_caseA u hwf hcc hA
    · rcases hpop with hA' | ⟨hqn, hB⟩
      · exact absurd hA' hA
      · -- the strip fired once
        by_cases hcond : (serializeN (normCore u)).getLast? == some '/' ∧
            3 < countSlash (serializeN (normCore u))
        · have hpop1 : popSlash (serializeN (normCore u)) =
              (serializeN (normCore u)).dropLast := by
            unfold popSlash
            rw [if_pos hcond]
          rw [hpop1] at hB ⊢
          exact normalizeChars_caseB (normCore u) hwf hqn
            (by simpa using hcond.1) hcond.2 hB
        · exact absurd (by unfold popSlash; rw [if_neg hcond]) hA

/-- C2 witness: a concrete URL with an unsorted two-key query satisfies
the side conditions, and normalization is idempotent on it. -/
theorem c2_normalize_idempotent_witness :
    normGoodB "http://a.com/x?b=2&a=1" = true ∧
    normalize_url (normalize_url "http://a.com/x?b=2&a=1") =
      normalize_url "http://a.com/x?b=2&a=1" :=
  ⟨by decide, c2_normalize_idempotent_amended "http://a.com/x?b=2&a=1" (by decide)⟩

/-!
## The UrlStore model

RocksDB column families are modelled as association lists sorted
strictly by key; a put overwrites, a delete removes the key, and the
iterator in Start mode visits keys in ascending byte order, so its first
element is the head of the sorted list.  Lean string order coincides
with byte order on the ASCII keys of the model.  Timestamp values are
the eight little-endian bytes the Rust code stores.
-/

abbrev Bytes := List Nat

structure Store where
  frontier : List (String × Bytes)
  visited : List (String × Bytes)
deriving DecidableEq, Repr

def kvLookup (k : String) : List (String × Bytes) → Option Bytes
  | [] => none
  | (k1, v) :: t => if k1 = k then some v else kvLookup k t

def kvInsert (k : String) (v : Bytes) : List (String × Bytes) → List (String × Bytes)
  | [] => [(k, v)]
  | (k1, v1) :: t =>
    if k1 < k then (k1, v1) :: kvInsert k v t
    else if k1 = k then (k, v) :: t
    else (k, v) :: (k1, v1) :: t

def kvErase (k : String) (l : List (String × Bytes)) : List (String × Bytes) :=
  l.filter (fun kv => !(kv.1 == k))

def toLeBytes : Nat → Nat → Bytes
  | 0, _ => []
  | k + 1, n => n % 256 :: toLeBytes k (n / 256)

def fromLeBytes : Bytes → Nat
  | [] => 0
  | b :: t => b + 256 * fromLeBytes t

/-- UrlStore::add_to_frontier: normalize, refuse if the key is in
visited or in frontier, otherwise store the key in frontier with the
timestamp value and answer true. -/
def add_to_frontier (s : Store) (url : String) (now : Nat) : Bool × Store :=
  let key := normalize_url url
  if (kvLookup key s.visited).isSome then (false, s)
  else if (kvLookup key s.frontier).isSome then (false, s)
  else (true, { s with frontier := kvInsert key (toLeBytes 8 now) s.frontier })

/-- UrlStore::pop_from_frontier: take the first frontier key, write it
into visited with the timestamp, delete it from frontier. -/
def pop_from_frontier (s : Store) (now : Nat) : Option String × Store :=
  match s.frontier with
  | [] => (none, s)
  | (key, _) :: _ =>
    (some key,
      { visited := kvInsert key (toLeBytes 8 now) s.visited,
        frontier := kvErase key s.frontier })

/-- UrlStore::mark_visited: normalize and write into visited; the
frontier is not touched. -/
def mark_visited (s : Store) (url : String) (now : Nat) : Store :=
  { s with visited := kvInsert (normalize_url url) (toLeBytes 8 now) s.visited }

def statsKey : String := "__stats_pages_crawled__"

/-- UrlStore::get_pages_crawled: read the reserved key from visited;
answer zero when it is absent or its value is not eight bytes long,
otherwise decode little endian. -/
def get_pages_crawled (s : Store) : Nat :=
  match kvLookup statsKey s.visited with
  | some bytes => if bytes.length = 8 then fromLeBytes bytes else 0
  | none => 0

/-- UrlStore::set_pages_crawled: write the eight little-endian bytes of
the count under the reserved key in visited. -/
def set_pages_crawled (s : Store) (count : Nat) : Store :=
  { s with visited := kvInsert statsKey (toLeBytes 8 count) s.visited }

inductive Op
  | add (url : String) (now : Nat)
  | pop (now : Nat)
  | mark (url : String) (now : Nat)
deriving DecidableEq, Repr

def stepOp (s : Store) : Op → Store
  | .add url now => (add_to_frontier s url now).2
  | .pop now => (pop_from_frontier s now).2
  | .mark url now => mark_visited s url now

def emptyStore : Store := ⟨[], []⟩

def runOps (ops : List Op) : Store := ops.foldl stepOp emptyStore

/-- A key is present in at most one of the two namespaces. -/
def disjointB (s : Store) : Bool :=
  s.frontier.all (fun kv => (kvLookup kv.1 s.visited).isNone)

def noMark : Op → Bool
  | .mark _ _ => false
  | _ => true

/-! ## Association list lemmas -/

theorem kvLookup_insert_self (k : String) (v : Bytes)
    (l : List (String × Bytes)) : kvLookup k (kvInsert k v l) = some v := by
  induction l with
  | nil => simp [kvInsert, kvLookup]
  | cons p t ih =>
    obtain ⟨k1, v1⟩ := p
    unfold kvInsert
    by_cases h1 : k1 < k
    · rw [if_pos h1]
      unfold kvLookup
      rw [if_neg (by intro he; subst he; exact lt_irrefl _ h1)]
      exact ih
    · rw [if_neg h1]
      by_cases h2 : k1 = k
      · rw [if_pos h2]
        unfold kvLookup
        rw [if_pos rfl]
      · rw [if_neg h2]
        unfold kvLookup
        rw [if_pos rfl]

theorem kvLookup_cons (k1 k : String) (v : Bytes) (t : List (String × Bytes)) :
    kvLookup k1 ((k, v) :: t) = if k = k1 then some v else kvLookup k1 t := rfl

theorem kvLookup_insert_ne {k1 k : String} (v : Bytes)
    (l : List (String × Bytes)) (h : k1 ≠ k) :
    kvLookup k1 (kvInsert k v l) = kvLookup k1 l := by
  have hk : k ≠ k1 := fun he => h he.symm
  induction l with
  | nil =>
    show kvLookup k1 [(k, v)] = none
    rw [kvLookup_cons, if_neg hk]
    rfl
  | cons p t ih =>
    obtain ⟨k2, v2⟩ := p
    unfold kvInsert
    by_cases ha : k2 < k
    · rw [if_pos ha, kvLookup_cons, kvLookup_cons]
      by_cases hb : k2 = k1
      · rw [if_pos hb, if_pos hb]
      · rw [if_neg hb, if_neg hb, ih]
    · rw [if_neg ha]
      by_cases hb : k2 = k
      · subst hb
        rw [if_pos rfl, kvLookup_cons, kvLookup_cons, if_neg hk, if_neg hk]
      · rw [if_neg hb, kvLookup_cons, if_neg hk]

theorem mem_kvInsert {x : String × Bytes} {k : String} {v : Bytes}
    {l : List (String × Bytes)} (h : x ∈ kvInsert k v l) :
    x = (k, v) ∨ x ∈ l := by
  induction l with
  | nil => simpa [kvInsert] using h
  | cons p t ih =>
    obtain ⟨k2, v2⟩ := p
    unfold kvInsert at h
    split at h
    · rcases List.mem_cons.mp h with h | h
      · right
        simp [h]
      · rcases ih h with h | h
        · left; exact h
        · right; simp [h]
    · split at h
      · rcases List.mem_cons.mp h with h | h
        · left; exact h
        · right; simp [h]
      · rcases List.mem_cons.mp h with h | h
        · left; exact h
        · right; exact h

theorem kvLookup_none_of_not_mem {k : String} {l : List (String × Bytes)}
    (h : ∀ v, (k, v) ∉ l) : kvLookup k l = none := by
  induction l with
  | nil => rfl
  | cons p t ih =>
    obtain ⟨k2, v2⟩ := p
    unfold kvLookup
    rw [if_neg (by
      intro he
      subst he
      exact h v2 (by simp))]
    exact ih (fun v hv => h v (by simp [hv]))

theorem kvLookup_isSome_mem {k : String} {l : List (String × Bytes)}
    (h : (kvLookup k l).isSome = true) : ∃ v, (k, v) ∈ l := by
  induction l with
  | nil => simp [kvLookup] at h
  | cons p t ih =>
    obtain ⟨k2, v2⟩ := p
    unfold kvLookup at h
    split at h
    · rename_i he
      subst he
      exact ⟨v2, by simp⟩
    · rcases ih h with ⟨v, hv⟩
      exact ⟨v, by simp [hv]⟩

theorem kvLookup_erase_self (k : String) (l : List (String × Bytes)) :
    kvLookup k (kvErase k l) = none := by
  apply kvLookup_none_of_not_mem
  intro v hv
  have := List.mem_filter.mp hv
  simp at this

theorem mem_kvErase {x : String × Bytes} {k : String}
    {l : List (String × Bytes)} (h : x ∈ kvErase k l) : x ∈ l :=
  (List.mem_filter.mp h).1

theorem key_ne_of_mem_kvErase {x : String × Bytes} {k : String}
    {l : List (String × Bytes)} (h : x ∈ kvErase k l) : x.1 ≠ k := by
  have := (List.mem_filter.mp h).2
  simpa using this

/-! ## Disjointness preservation -/

theorem disjointB_forall {s : Store} :
    disjointB s = true ↔ ∀ kv ∈ s.frontier, (kvLookup kv.1 s.visited).isNone = true := by
  unfold disjointB
  exact List.all_eq_true

theorem disjoint_step {s : Store} {op : Op} (hd : disjointB s = true)
    (hm : noMark op = true) : disjointB (stepOp s op) = true := by
  cases op with
  | mark url now => simp [noMark] at hm
  | add url now =>
    show disjointB (add_to_frontier s url now).2 = true
    unfold add_to_frontier
    by_cases hv : (kvLookup (normalize_url url) s.visited).isSome = true
    · simp only [hv, if_true]
      exact hd
    · rw [if_neg (by simpa using hv)]
      by_cases hf : (kvLookup (normalize_url url) s.frontier).isSome = true
      · simp only [hf, if_true]
        exact hd
      · rw [if_neg (by simpa using hf)]
        apply disjointB_forall.mpr
        intro kv hkv
        rcases mem_kvInsert hkv with rfl | hkv
        · simpa [Option.isNone_iff_eq_none] using
            Option.not_isSome_iff_eq_none.mp hv
        · exact disjointB_forall.mp hd kv hkv
  | pop now =>
    show disjointB (pop_from_frontier s now).2 = true
    cases hfr : s.frontier with
    | nil =>
      unfold pop_from_frontier
      rw [hfr]
      exact hd
    | cons p t =>
      obtain ⟨key, v⟩ := p
      have hpop : (pop_from_frontier s now).2 =
          { visited := kvInsert key (toLeBytes 8 now) s.visited,
            frontier := kvErase key s.frontier } := by
        unfold pop_from_frontier
        rw [hfr]
      rw [hpop]
      apply disjointB_forall.mpr
      intro kv hkv
      have hkv' : kv ∈ kvErase key s.frontier := hkv
      have hne : kv.1 ≠ key := key_ne_of_mem_kvErase hkv'
      have hmem : kv ∈ s.frontier := mem_kvErase hkv'
      show (kvLookup kv.1 (kvInsert key (toLeBytes 8 now) s.visited)).isNone = true
      rw [kvLookup_insert_ne _ _ hne]
      exact disjointB_forall.mp hd kv hmem

theorem disjoint_run_aux (ops : List Op) (s : Store)
    (hd : disjointB s = true) (hm : ops.all noMark = true) :
    disjointB (ops.foldl stepOp s) = true := by
  induction ops generalizing s with
  | nil => exact hd
  | cons op rest ih =>
    simp only [List.all_cons, Bool.and_eq_true] at hm
    exact ih _ (disjoint_step hd hm.1) hm.2

/-! ## Claim C1 -/

/-- C1 counterexample: after add_to_frontier of a URL and mark_visited
of the same URL, its key sits in the frontier and in the visited
namespace at the same time, because mark_visited never deletes from the
frontier. -/
theorem c1_disjoint_counterexample :
    (kvLookup "nota0url" (runOps [.add "nota0url" 0, .mark "nota0url" 1]).frontier).isSome
      = true ∧
    (kvLookup "nota0url" (runOps [.add "nota0url" 0, .mark "nota0url" 1]).visited).isSome
      = true ∧
    disjointB (runOps [.add "nota0url" 0, .mark "nota0url" 1]) = false := by
  decide

/-- C1 amended: for every sequence of add_to_frontier and
pop_from_frontier operations starting from the empty store, a key is in
at most one of the frontier and visited namespaces after each operation;
the claim fails for sequences containing mark_visited, which writes a
frontier key into visited without deleting it from the frontier. -/
theorem c1_disjoint_add_pop (ops : List Op) (hm : ops.all noMark = true) :
    disjointB (runOps ops) = true :=
  disjoint_run_aux ops emptyStore rfl hm

/-- C1 witness: a concrete mark-free trace keeps the namespaces
disjoint. -/
theorem c1_disjoint_add_pop_witness :
    ([Op.add "nota1url" 0, Op.pop 1, Op.add "nota2url" 2].all noMark = true) ∧
    disjointB (runOps [Op.add "nota1url" 0, Op.pop 1, Op.add "nota2url" 2]) = true :=
  ⟨by decide, c1_disjoint_add_pop [Op.add "nota1url" 0, Op.pop 1, Op.add "nota2url" 2]
    (by decide)⟩

/-! ## Claim C6 -/

/-- C6: when the normalized key is in neither namespace, the first
add_to_frontier answers true, the immediately following add_to_frontier
of the same URL answers false, and after the second call the normalized
key is in the frontier. -/
theorem c6_add_twice (s : Store) (u : String) (t1 t2 : Nat)
    (hv : kvLookup (normalize_url u) s.visited = none)
    (hf : kvLookup (normalize_url u) s.frontier = none) :
    (add_to_frontier s u t1).1 = true ∧
    (add_to_frontier (add_to_frontier s u t1).2 u t2).1 = false ∧
    (kvLookup (normalize_url u)
      (add_to_frontier (add_to_frontier s u t1).2 u t2).2.frontier).isSome = true := by
  have h1 : add_to_frontier s u t1 =
      (true, { s with frontier := kvInsert (normalize_url u) (toLeBytes 8 t1) s.frontier }) := by
    simp [add_to_frontier, hv, hf]
  have h2 : add_to_frontier
      { s with frontier := kvInsert (normalize_url u) (toLeBytes 8 t1) s.frontier } u t2 =
      (false, { s with frontier := kvInsert (normalize_url u) (toLeBytes 8 t1) s.frontier }) := by
    simp [add_to_frontier, hv, kvLookup_insert_self]
  refine ⟨by rw [h1], ?_, ?_⟩
  · rw [h1, h2]
  · rw [h1, h2]
    show (kvLookup (normalize_url u)
      (kvInsert (normalize_url u) (toLeBytes 8 t1) s.frontier)).isSome = true
    rw [kvLookup_insert_self]
    rfl

/-- C6 witness: the theorem at the empty store and a concrete URL. -/
theorem c6_add_twice_witness :
    (add_to_frontier emptyStore "nota3url" 0).1 = true ∧
    (add_to_frontier (add_to_frontier emptyStore "nota3url" 0).2 "nota3url" 1).1 = false ∧
    (kvLookup (normalize_url "nota3url")
      (add_to_frontier (add_to_frontier emptyStore "nota3url" 0).2 "nota3url" 1).2.frontier).isSome
      = true :=
  c6_add_twice emptyStore "nota3url" 0 1 (by decide) (by decide)

/-! ## Claim C7 -/

theorem keyLe_refl (a : List Char) : keyLe a a = true := by
  induction a with
  | nil => rfl
  | cons x xs ih => simp [keyLe, ih]

/-- The frontier column family sorted in ascending byte order, the
RocksDB iterator invariant. -/
def sortedKeysB : List (String × Bytes) → Bool
  | [] => true
  | [_] => true
  | a :: b :: t => keyLe a.1.data b.1.data && sortedKeysB (b :: t)

theorem sorted_head_le {a : String × Bytes} {l : List (String × Bytes)}
    (h : sortedKeysB (a :: l) = true) : ∀ x ∈ l, keyLe a.1.data x.1.data = true := by
  induction l generalizing a with
  | nil => intro x hx; simp at hx
  | cons b t ih =>
    simp only [sortedKeysB, Bool.and_eq_true] at h
    intro x hx
    rcases List.mem_cons.mp hx with rfl | hx
    · exact h.1
    · exact keyLe_trans h.1 (ih h.2 x hx)

/-- C7: pop_from_frontier answers none exactly when the frontier is
empty; otherwise it answers the least frontier key, and afterwards that
key is in visited and no longer in the frontier.  The hypothesis that
the frontier list is sorted is the RocksDB iterator invariant the model
maintains. -/
theorem c7_pop_spec (s : Store) (now : Nat) (hs : sortedKeysB s.frontier = true) :
    ((pop_from_frontier s now).1 = none ↔ s.frontier = []) ∧
    (∀ k, (pop_from_frontier s now).1 = some k →
      (∀ kv ∈ s.frontier, keyLe k.data kv.1.data = true) ∧
      (kvLookup k (pop_from_frontier s now).2.visited).isSome = true ∧
      kvLookup k (pop_from_frontier s now).2.frontier = none) := by
  cases hfr : s.frontier with
  | nil =>
    have hpop : pop_from_frontier s now = (none, s) := by
      unfold pop_from_frontier
      rw [hfr]
    rw [hpop, hfr]
    exact ⟨by simp, by simp⟩
  | cons p t =>
    obtain ⟨key, v⟩ := p
    have hpop : pop_from_frontier s now =
        (some key,
          { visited := kvInsert key (toLeBytes 8 now) s.visited,
            frontier := kvErase key s.frontier }) := by
      unfold pop_from_frontier
      rw [hfr]
    rw [hpop]
    constructor
    · simp [hfr]
    · intro k hk
      simp only [Option.some.injEq] at hk
      subst hk
      refine ⟨?_, ?_, ?_⟩
      · intro kv hkv
        rcases List.mem_cons.mp hkv with rfl | hkv
        · exact keyLe_refl _
        · exact sorted_head_le (by rw [hfr] at hs; exact hs) kv hkv
      · show (kvLookup key (kvInsert key (toLeBytes 8 now) s.visited)).isSome = true
        rw [kvLookup_insert_self]
        rfl
      · show kvLookup key (kvErase key s.frontier) = none
        exact kvLookup_erase_self key s.frontier

/-- C7 witness: the theorem at a concrete two-element sorted frontier. -/
theorem c7_pop_spec_witness :
    ((pop_from_frontier ⟨[("a", [0]), ("b", [0])], []⟩ 5).1 = none ↔
      (⟨[("a", [0]), ("b", [0])], []⟩ : Store).frontier = []) ∧
    (∀ k, (pop_from_frontier ⟨[("a", [0]), ("b", [0])], []⟩ 5).1 = some k →
      (∀ kv ∈ (⟨[("a", [0]), ("b", [0])], []⟩ : Store).frontier,
        keyLe k.data kv.1.data = true) ∧
      (kvLookup k (pop_from_frontier ⟨[("a", [0]), ("b", [0])], []⟩ 5).2.visited).isSome = true ∧
      kvLookup k (pop_from_frontier ⟨[("a", [0]), ("b", [0])], []⟩ 5).2.frontier = none) :=
  c7_pop_spec ⟨[("a", [0]), ("b", [0])], []⟩ 5 (by decide)

/-! ## Claim C10 -/

theorem toLeBytes_length (k n : Nat) : (toLeBytes k n).length = k := by
  induction k generalizing n with
  | zero => rfl
  | succ k ih => simp [toLeBytes, ih]

theorem fromLe_toLe (k n : Nat) : fromLeBytes (toLeBytes k n) = n % 256 ^ k := by
  induction k generalizing n with
  | zero => simp [toLeBytes, fromLeBytes, Nat.mod_one]
  | succ k ih =>
    show n % 256 + 256 * fromLeBytes (toLeBytes k (n / 256)) = n % 256 ^ (k + 1)
    rw [ih]
    have hpow : (256 : Nat) ^ (k + 1) = 256 * 256 ^ k := by ring
    rw [hpow]
    have e1 : n % (256 * 256 ^ k) / 256 = n / 256 % 256 ^ k :=
      Nat.mod_mul_right_div_self n 256 (256 ^ k)
    have e2 : n % (256 * 256 ^ k) % 256 = n % 256 :=
      Nat.mod_mod_of_dvd n (dvd_mul_right 256 (256 ^ k))
    have e3 := Nat.div_add_mod (n % (256 * 256 ^ k)) 256
    omega

/-- C10: get_pages_crawled answers zero when the reserved key is absent
from visited or its value is not exactly eight bytes long, and after
set_pages_crawled of a count in the usize range it answers that count
(little-endian eight-byte decode of what was stored). -/
theorem c10_pages_crawled (s : Store) (n : Nat) :
    (kvLookup statsKey s.visited = none → get_pages_crawled s = 0) ∧
    (∀ bs, kvLookup statsKey s.visited = some bs → bs.length ≠ 8 →
      get_pages_crawled s = 0) ∧
    (n < 2 ^ 64 → get_pages_crawled (set_pages_crawled s n) = n) := by
  refine ⟨?_, ?_, ?_⟩
  · intro h
    unfold get_pages_crawled
    rw [h]
  · intro bs h hlen
    unfold get_pages_crawled
    rw [h]
    simp [hlen]
  · intro hn
    unfold get_pages_crawled set_pages_crawled
    rw [show ({ s with visited := kvInsert statsKey (toLeBytes 8 n) s.visited } :
        Store).visited = kvInsert statsKey (toLeBytes 8 n) s.visited from rfl]
    rw [kvLookup_insert_self]
    show (if (toLeBytes 8 n).length = 8 then fromLeBytes (toLeBytes 8 n) else 0) = n
    rw [if_pos (toLeBytes_length 8 n), fromLe_toLe]
    have : (256 : Nat) ^ 8 = 2 ^ 64 := by norm_num
    rw [this]
    exact Nat.mod_eq_of_lt hn

/-- C10 witness: the theorem at the empty store and the count 12345. -/
theorem c10_pages_crawled_witness :
    get_pages_crawled (set_pages_crawled emptyStore 12345) = 12345 :=
  (c10_pages_crawled emptyStore 12345).2.2 (by norm_num)

/-!
## HttpClient::fetch

The response is modelled by its status code, the optional Content-Type
header, the optional Content-Length header, and the byte length of the
body; the control flow of fetch only inspects the byte length of the
body, so the ok value carries that length.
-/

def MAX_RESPONSE_SIZE : Nat := 10 * 1024 * 1024

structure Response where
  status : Nat
  contentType : Option String
  contentLength : Option Nat
  bodyLen : Nat
deriving DecidableEq, Repr

inductive FetchError
  | HttpError (code : Nat)
  | InvalidContentType (ct : String)
  | TooLarge (size : Nat)
deriving DecidableEq, Repr

/-- StatusCode::is_success of the http crate: the 2xx range. -/
def statusSuccess (s : Nat) : Bool := decide (200 ≤ s ∧ s < 300)

/-- The contains check of the Content-Type guard. -/
def ctHasHtml (ct : String) : Bool := hasSub "text/html".data ct.data

def fetchBody (r : Response) : Except FetchError Nat :=
  if MAX_RESPONSE_SIZE < r.bodyLen then .error (.TooLarge r.bodyLen)
  else .ok r.bodyLen

def fetchAfterCT (r : Response) : Except FetchError Nat :=
  match r.contentLength with
  | some n => if MAX_RESPONSE_SIZE < n then .error (.TooLarge n) else fetchBody r
  | none => fetchBody r

/-- HttpClient::fetch on a received response: status guard, Content-Type
guard, Content-Length guard, body length guard, in the order of the Rust
code. -/
def fetch (r : Response) : Except FetchError Nat :=
  if !statusSuccess r.status then .error (.HttpError r.status)
  else
    match r.contentType with
    | some ct =>
      if !ctHasHtml ct then .error (.InvalidContentType ct)
      else fetchAfterCT r
    | none => fetchAfterCT r

def ctAccept : Option String → Bool
  | some ct => ctHasHtml ct
  | none => true

def clUnder : Option Nat → Bool
  | some n => decide (n ≤ MAX_RESPONSE_SIZE)
  | none => true

/-! ## Claim C4 -/

/-- C4: with a success status and an acceptable Content-Type, a body of
exactly ten mebibytes is accepted, a body one byte over is rejected with
TooLarge, a Content-Length over the cap is rejected with TooLarge
carrying the header value and independently of the body, and a response
with no Content-Length and a body under the cap is accepted. -/
theorem c4_fetch_size_caps (r : Response)
    (hs : statusSuccess r.status = true)
    (hct : ctAccept r.contentType = true) :
    (r.bodyLen = MAX_RESPONSE_SIZE → clUnder r.contentLength = true →
      fetch r = .ok MAX_RESPONSE_SIZE) ∧
    (r.bodyLen = MAX_RESPONSE_SIZE + 1 → clUnder r.contentLength = true →
      fetch r = .error (.TooLarge (MAX_RESPONSE_SIZE + 1))) ∧
    (∀ n, r.contentLength = some n → MAX_RESPONSE_SIZE < n →
      fetch r = .error (.TooLarge n)) ∧
    (r.contentLength = none → r.bodyLen ≤ MAX_RESPONSE_SIZE →
      fetch r = .ok r.bodyLen) := by
  have hfetch : fetch r = fetchAfterCT r := by
    unfold fetch
    rw [hs]
    cases hc : r.contentType with
    | none => rfl
    | some ct =>
      rw [hc] at hct
      simp only [ctAccept] at hct
      simp [hct]
  have hsome : ∀ n, r.contentLength = some n → fetchAfterCT r =
      if MAX_RESPONSE_SIZE < n then .error (.TooLarge n) else fetchBody r := by
    intro n hc
    unfold fetchAfterCT
    rw [hc]
  have hnone : r.contentLength = none → fetchAfterCT r = fetchBody r := by
    intro hc
    unfold fetchAfterCT
    rw [hc]
  refine ⟨?_, ?_, ?_, ?_⟩
  · intro hb hcl
    rw [hfetch]
    cases hc : r.contentLength with
    | none => simp [hnone hc, fetchBody, hb]
    | some n =>
      rw [hc] at hcl
      simp only [clUnder, decide_eq_true_eq] at hcl
      rw [hsome n hc, if_neg (Nat.not_lt.mpr hcl)]
      simp [fetchBody, hb]
  · intro hb hcl
    rw [hfetch]
    cases hc : r.contentLength with
    | none => simp [hnone hc, fetchBody, hb, Nat.lt_succ_self]
    | some n =>
      rw [hc] at hcl
      simp only [clUnder, decide_eq_true_eq] at hcl
      rw [hsome n hc, if_neg (Nat.not_lt.mpr hcl)]
      simp [fetchBody, hb, Nat.lt_succ_self]
  · intro n hc hn
    rw [hfetch, hsome n hc, if_pos hn]
  · intro hc hb
    rw [hfetch, hnone hc]
    simp [fetchBody, Nat.not_lt.mpr hb]

/-- C4 witness: the theorem at a concrete response with status 200, an
html Content-Type, no Content-Length, and a body of exactly ten
mebibytes. -/
theorem c4_fetch_size_caps_witness :
    fetch ⟨200, some "text/html", none, 10485760⟩ = .ok 10485760 :=
  ((c4_fetch_size_caps ⟨200, some "text/html", none, 10485760⟩
    (by decide) (by decide)).2.2.2 rfl (by decide))

/-!
## BufferedWriter

The state is the record count and byte count of the batch together with
the nanoseconds elapsed since the last flush at the moment of the check.
add_to_batch appends the serialized line plus one newline byte; the run
loop flushes exactly when should_flush holds after a record was
buffered.
-/

def BATCH_SIZE : Nat := 100

def FLUSH_INTERVAL_SECS : Nat := 5

def MAX_BUFFER_SIZE : Nat := 1000000

structure WState where
  batchLen : Nat
  batchBytes : Nat
  elapsedNanos : Nat
deriving DecidableEq, Repr

/-- BufferedWriter::add_to_batch for a record whose serialization is
lineLen bytes long. -/
def writer_add_to_batch (st : WState) (lineLen : Nat) : WState :=
  ⟨st.batchLen + 1, st.batchBytes + lineLen + 1, st.elapsedNanos⟩

/-- BufferedWriter::should_flush. -/
def should_flush (st : WState) : Bool :=
  decide (BATCH_SIZE ≤ st.batchLen) ||
  decide (MAX_BUFFER_SIZE ≤ st.batchBytes) ||
  decide (FLUSH_INTERVAL_SECS * 1000000000 ≤ st.elapsedNanos)

/-- One iteration of the run loop flushes exactly when should_flush
holds after the record was buffered. -/
def stepFlushes (st : WState) (lineLen : Nat) : Bool :=
  should_flush (writer_add_to_batch st lineLen)

/-- The flush predicate the claim states, with a one-mebibyte threshold. -/
def claimFlush (st : WState) : Bool :=
  decide (100 ≤ st.batchLen) ||
  decide (1048576 ≤ st.batchBytes) ||
  decide (5 * 1000000000 ≤ st.elapsedNanos)

/-! ## Claim C5 -/

/-- C5 counterexample: after buffering a nine-byte record onto a batch
of 999990 bytes the code flushes, because its byte threshold is the
decimal million of MAX_BUFFER_SIZE, while the claimed one-mebibyte
threshold says no trigger holds: the batch is one record, 1000000 bytes
is less than 1048576, and no time has passed. -/
theorem c5_flush_counterexample :
    stepFlushes ⟨0, 999990, 0⟩ 9 = true ∧
    claimFlush (writer_add_to_batch ⟨0, 999990, 0⟩ 9) = false := by
  decide

/-- C5 amended: the sink flushes exactly when, after a record is
buffered, the batch holds at least 100 records, or the accumulated
bytes (serialized record plus newline each) reach at least 1000000
bytes (not one mebibyte), or at least five seconds have elapsed since
the last flush. -/
theorem c5_flush_iff (st : WState) (lineLen : Nat) :
    stepFlushes st lineLen = true ↔
      (100 ≤ st.batchLen + 1 ∨ 1000000 ≤ st.batchBytes + lineLen + 1 ∨
        5000000000 ≤ st.elapsedNanos) := by
  unfold stepFlushes should_flush writer_add_to_batch BATCH_SIZE MAX_BUFFER_SIZE
    FLUSH_INTERVAL_SECS
  simp only [Bool.or_eq_true, decide_eq_true_eq]
  norm_num
  tauto

/-!
## The link filter of the old parser

A parsed URL of the url crate is modelled by scheme, host, path, query
and fragment; the host distinguishes a registrable domain from an IP
address, since Url::domain answers None exactly for IP hosts while
Url::host_str answers the textual host either way.
-/

inductive CrawlHost
  | dom (s : String)
  | ip (s : String)
deriving DecidableEq, Repr

structure CrawlUrl where
  scheme : String
  host : Option CrawlHost
  path : String
  query : Option String
  frag : Option String
deriving DecidableEq, Repr

def hostText : CrawlHost → String
  | .dom s => s
  | .ip s => s

/-- Url::domain: some for domain hosts, none for IP hosts and absent
hosts. -/
def domainOf (u : CrawlUrl) : Option String :=
  match u.host with
  | some (.dom s) => some s
  | _ => none

/-- Url::as_str of the model. -/
def crawlAsStr (u : CrawlUrl) : String :=
  (match u.host with
    | some h => u.scheme ++ "://" ++ hostText h ++ u.path
    | none => u.scheme ++ ":" ++ u.path) ++
  (match u.query with
    | some q => "?" ++ q
    | none => "") ++
  (match u.frag with
    | some f => "#" ++ f
    | none => "")

def endsWithS (s e : String) : Bool := pfxOf e.data.reverse s.data.reverse

/-- ASCII lowercasing of one character, the effect of Rust
to_lowercase on the ASCII range of the model. -/
def lowerChar (c : Char) : Char :=
  if 65 ≤ c.toNat ∧ c.toNat ≤ 90 then Char.ofNat (c.toNat + 32) else c

def toLowerS (s : String) : String := String.mk (s.data.map lowerChar)

def beforeQm (s : String) : String :=
  String.mk (s.data.takeWhile (fun c => !(c == '?')))

def media_extensions : List String :=
  [".jpg", ".jpeg", ".png", ".gif", ".bmp", ".svg", ".webp", ".ico", ".tiff",
   ".mp4", ".avi", ".mov", ".wmv", ".flv", ".webm", ".mkv", ".m4v",
   ".mp3", ".wav", ".ogg", ".m4a", ".flac", ".aac",
   ".pdf", ".doc", ".docx", ".xls", ".xlsx", ".ppt", ".pptx", ".xml",
   ".zip", ".rar", ".tar", ".gz", ".7z",
   ".exe", ".dmg", ".pkg", ".deb", ".rpm"]

/-- is_media_file of the old parser: lowercase the URL, keep the part
before the first question mark, test the fixed extension set. -/
def is_media_file (url : String) : Bool :=
  media_extensions.any (fun ext => endsWithS (beforeQm (toLowerS url)) ext)

/-- url_validation of the old parser, with its early returns: the media
test first, then the domain suffix test only when a domain is present,
then the scheme and host-presence test. -/
def url_validation (u : CrawlUrl) : Bool :=
  if is_media_file (crawlAsStr u) then false
  else
    match domainOf u with
    | some d =>
      if !endsWithS d "wikipedia.org" then false
      else (u.scheme == "http" || u.scheme == "https") && u.host.isSome
    | none => (u.scheme == "http" || u.scheme == "https") && u.host.isSome

/-- The acceptance predicate the claim states: the allow-list must match
the registered domain, so a URL without a registrable domain is
rejected. -/
def claimAccepts (u : CrawlUrl) : Bool :=
  ((u.scheme == "http" || u.scheme == "https") && u.host.isSome &&
    !is_media_file (crawlAsStr u)) &&
  (match domainOf u with
    | some d => endsWithS d "wikipedia.org"
    | none => false)

/-- The amended acceptance predicate: the domain suffix test applies
only when the host is a registrable domain; IP-hosted URLs bypass the
allow-list. -/
def amendedAccepts (u : CrawlUrl) : Bool :=
  ((u.scheme == "http" || u.scheme == "https") && u.host.isSome &&
    !is_media_file (crawlAsStr u)) &&
  (match domainOf u with
    | some d => endsWithS d "wikipedia.org"
    | none => true)

/-! ## Claim C3 -/

/-- C3 counterexample: an IP-hosted URL passes url_validation although
its registered domain suffix does not match the wikipedia.org
allow-list, because the suffix test is skipped when Url::domain answers
None. -/
theorem c3_filter_counterexample :
    url_validation ⟨"http", some (.ip "93.184.216.34"), "/", none, none⟩ = true ∧
    claimAccepts ⟨"http", some (.ip "93.184.216.34"), "/", none, none⟩ = false := by
  decide

/-- C3 amended: the filter accepts exactly when the scheme is http or
https, a host is present, the serialized URL up to the first question
mark does not end with a media extension, and, whenever the host is a
registrable domain, that domain ends with the string wikipedia.org;
URLs whose host is an IP address bypass the allow-list test. -/
theorem c3_filter_iff (u : CrawlUrl) : url_validation u = amendedAccepts u := by
  unfold url_validation amendedAccepts
  cases hm : is_media_file (crawlAsStr u)
  · cases hd : domainOf u with
    | none => simp
    | some d =>
      cases he : endsWithS d "wikipedia.org"
      · simp [he]
      · simp [he]
  · cases hd : domainOf u with
    | none => simp
    | some d => simp

/-!
## parse_html of the current crawler

The lol_html rewriter is modelled on its event stream: start tags with
their attribute lists, end tags, and text chunks.  The html-lang element
handler runs on every start tag named html that carries a lang
attribute, and the title text handler runs on every text chunk inside a
title element; a flag tracks whether a title element is open.  The model
state carries exactly the three captured variables the two handlers of
claims C8 and C9 write: language, title, and the open-title flag.
-/

inductive Tok
  | startTag (name : String) (attrs : List (String × String))
  | endTag (name : String)
  | text (s : String)
deriving DecidableEq, Repr

/-- get_attribute: the first attribute with the given name. -/
def lookupAttr : List (String × String) → String → Option String
  | [], _ => none
  | (a, v) :: t, k => if a = k then some v else lookupAttr t k

structure PState where
  inTitle : Bool
  title : Option String
  language : Option String
deriving DecidableEq, Repr

/-- One event: the html-lang handler overwrites language on every match,
and the title text handler appends every chunk inside any title element,
starting a fresh string only when title is still None, as the Rust
closures do. -/
def procTok (st : PState) : Tok → PState
  | .startTag n attrs =>
    { inTitle := if n = "title" then true else st.inTitle
      title := st.title
      language :=
        if n = "html" then
          match lookupAttr attrs "lang" with
          | some l => some l
          | none => st.language
        else st.language }
  | .endTag n =>
    { st with inTitle := if n = "title" then false else st.inTitle }
  | .text s =>
    if st.inTitle then
      { st with
        title :=
          match st.title with
          | none => some s
          | some t0 => some (t0 ++ s) }
    else st

def parse_html (toks : List Tok) : PState :=
  toks.foldl procTok ⟨false, none, none⟩

/-! ## String concatenation helpers -/

def strConcat : List String → String
  | [] => ""
  | c :: r => c ++ strConcat r

theorem strExt {a b : String} (h : a.data = b.data) : a = b := by
  cases a
  cases b
  exact congrArg String.mk h

theorem str_append_empty (s : String) : s ++ "" = s := by
  apply strExt
  show s.data ++ [] = s.data
  simp

theorem str_append_assoc (a b c : String) : a ++ b ++ c = a ++ (b ++ c) := by
  apply strExt
  show (a.data ++ b.data) ++ c.data = a.data ++ (b.data ++ c.data)
  simp

/-! ## The title field -/

/-- The text chunks delivered inside title elements, given whether a
title element is open at the start. -/
def titleChunks : List Tok → Bool → List String
  | [], _ => []
  | .startTag n _ :: r, inT => titleChunks r (if n = "title" then true else inT)
  | .endTag n :: r, inT => titleChunks r (if n = "title" then false else inT)
  | .text s :: r, inT => if inT then s :: titleChunks r inT else titleChunks r inT

def mergeTitle (t0 : Option String) : List String → Option String
  | [] => t0
  | c :: r =>
    match t0 with
    | none => some (strConcat (c :: r))
    | some t1 => some (t1 ++ strConcat (c :: r))

theorem mergeTitle_push (t0 : Option String) (s : String) (l : List String) :
    mergeTitle
      (match t0 with
        | none => some s
        | some t1 => some (t1 ++ s)) l = mergeTitle t0 (s :: l) := by
  cases t0 with
  | none =>
    cases l with
    | nil =>
      show some s = some (strConcat [s])
      rw [show strConcat [s] = s ++ "" from rfl, str_append_empty]
    | cons c r => rfl
  | some t1 =>
    cases l with
    | nil =>
      show some (t1 ++ s) = some (t1 ++ strConcat [s])
      rw [show strConcat [s] = s ++ "" from rfl, str_append_empty]
    | cons c r =>
      show some (t1 ++ s ++ strConcat (c :: r)) =
        some (t1 ++ (s ++ strConcat (c :: r)))
      rw [str_append_assoc]

theorem foldl_title (toks : List Tok) (st : PState) :
    (toks.foldl procTok st).title = mergeTitle st.title (titleChunks toks st.inTitle) := by
  induction toks generalizing st with
  | nil => rfl
  | cons t rest ih =>
    cases t with
    | startTag n attrs =>
      show (rest.foldl procTok (procTok st (.startTag n attrs))).title = _
      rw [ih]
      rfl
    | endTag n =>
      show (rest.foldl procTok (procTok st (.endTag n))).title = _
      rw [ih]
      rfl
    | text s =>
      have hstep : procTok st (.text s) =
          if st.inTitle then
            { st with
              title :=
                match st.title with
                | none => some s
                | some t0 => some (t0 ++ s) }
          else st := rfl
      cases hin : st.inTitle with
      | false =>
        have h1 : procTok st (.text s) = st := by
          rw [hstep, hin]
          simp
        show (rest.foldl procTok (procTok st (.text s))).title = _
        rw [h1, ih, hin]
        rfl
      | true =>
        have h1 : procTok st (.text s) =
            { st with
              title :=
                match st.title with
                | none => some s
                | some t0 => some (t0 ++ s) } := by
          rw [hstep, hin]
          simp
        show (rest.foldl procTok (procTok st (.text s))).title = _
        rw [h1, ih]
        have hproj : ({ st with
            title :=
              match st.title with
              | none => some s
              | some t0 => some (t0 ++ s) } : PState).inTitle = st.inTitle := rfl
        rw [hproj, hin]
        show mergeTitle
            (match st.title with
              | none => some s
              | some t0 => some (t0 ++ s)) (titleChunks rest true) =
          mergeTitle st.title (s :: titleChunks rest true)
        exact mergeTitle_push st.title s _

/-- The concatenation over every title element, spec side of the amended
claim. -/
def allTitleText (toks : List Tok) : Option String :=
  match titleChunks toks false with
  | [] => none
  | cs => some (strConcat cs)

/-- The concatenation over the first title element only, the claim as
written. -/
def afterFirstOpen : List Tok → List String
  | [] => []
  | .endTag n :: r => if n = "title" then [] else afterFirstOpen r
  | .text s :: r => s :: afterFirstOpen r
  | .startTag _ _ :: r => afterFirstOpen r

def firstTitleChunks : List Tok → List String
  | [] => []
  | .startTag n _ :: r =>
    if n = "title" then afterFirstOpen r else firstTitleChunks r
  | _ :: r => firstTitleChunks r

def firstTitleText (toks : List Tok) : Option String :=
  match firstTitleChunks toks with
  | [] => none
  | cs => some (strConcat cs)

/-! ## Claim C8 -/

/-- C8 counterexample: with two title elements the title field collects
the text of both, "AB", while the first-element-only reading of the
claim gives "A"; the title text handler is not restricted to the first
title element. -/
theorem c8_title_counterexample :
    (parse_html [.startTag "title" [], .text "A", .endTag "title",
      .startTag "title" [], .text "B", .endTag "title"]).title = some "AB" ∧
    firstTitleText [.startTag "title" [], .text "A", .endTag "title",
      .startTag "title" [], .text "B", .endTag "title"] = some "A" ∧
    (parse_html [.startTag "title" [], .text "A", .endTag "title",
      .startTag "title" [], .text "B", .endTag "title"]).title ≠
    firstTitleText [.startTag "title" [], .text "A", .endTag "title",
      .startTag "title" [], .text "B", .endTag "title"] := by
  refine ⟨by decide, by decide, by decide⟩

/-- C8 amended: the title field is the concatenation, in document
order, of all text chunks inside every title element, not only the
first; it is None exactly when no text chunk was delivered inside a
title element. -/
theorem c8_title_all (toks : List Tok) :
    (parse_html toks).title = allTitleText toks := by
  unfold parse_html
  rw [foldl_title]
  unfold allTitleText
  cases titleChunks toks false with
  | nil => rfl
  | cons c r => rfl

/-! ## The language field -/

/-- Every lang attribute value delivered by the html-lang handler, in
document order. -/
def langsOf (toks : List Tok) : List String :=
  toks.filterMap fun t =>
    match t with
    | .startTag n attrs => if n = "html" then lookupAttr attrs "lang" else none
    | _ => none

def mergeLang (st0 : Option String) (ls : List String) : Option String :=
  match ls.getLast? with
  | some l => some l
  | none => st0

theorem mergeLang_push (st0 : Option String) (l : String) (ls : List String) :
    mergeLang (some l) ls = mergeLang st0 (l :: ls) := by
  cases ls with
  | nil => rfl
  | cons c r =>
    unfold mergeLang
    rw [List.getLast?_cons_cons]
    cases hx : (c :: r).getLast? with
    | some y => rfl
    | none =>
      have hs : (c :: r).getLast?.isSome = true :=
        List.getLast?_isSome.mpr (by simp)
      rw [hx] at hs
      simp at hs

theorem foldl_lang (toks : List Tok) (st : PState) :
    (toks.foldl procTok st).language = mergeLang st.language (langsOf toks) := by
  induction toks generalizing st with
  | nil => rfl
  | cons t rest ih =>
    cases t with
    | startTag n attrs =>
      show (rest.foldl procTok (procTok st (.startTag n attrs))).language = _
      rw [ih]
      have hproj : (procTok st (.startTag n attrs)).language =
          if n = "html" then
            match lookupAttr attrs "lang" with
            | some l => some l
            | none => st.language
          else st.language := rfl
      rw [hproj]
      by_cases hn : n = "html"
      · subst hn
        rw [if_pos rfl]
        cases hl : lookupAttr attrs "lang" with
        | none =>
          have hlangs : langsOf (.startTag "html" attrs :: rest) = langsOf rest := by
            unfold langsOf
            rw [List.filterMap_cons]
            simp [hl]
          rw [hlangs]
        | some l =>
          have hlangs : langsOf (.startTag "html" attrs :: rest) =
              l :: langsOf rest := by
            unfold langsOf
            rw [List.filterMap_cons]
            simp [hl]
          rw [hlangs]
          exact mergeLang_push st.language l (langsOf rest)
      · rw [if_neg hn]
        have hlangs : langsOf (.startTag n attrs :: rest) = langsOf rest := by
          unfold langsOf
          rw [List.filterMap_cons]
          simp [hn]
        rw [hlangs]
    | endTag n =>
      show (rest.foldl procTok (procTok st (.endTag n))).language = _
      rw [ih]
      have hlangs : langsOf (.endTag n :: rest) = langsOf rest := by
        unfold langsOf
        rw [List.filterMap_cons]
      rw [hlangs]
      rfl
    | text s =>
      show (rest.foldl procTok (procTok st (.text s))).language = _
      rw [ih]
      have hstep : procTok st (.text s) =
          if st.inTitle then
            { st with
              title :=
                match st.title with
                | none => some s
                | some t0 => some (t0 ++ s) }
          else st := rfl
      have hl : (procTok st (.text s)).language = st.language := by
        cases hin : st.inTitle
        · rw [hstep, hin]
          rfl
        · rw [hstep, hin]
          rfl
      rw [hl]
      have hlangs : langsOf (.text s :: rest) = langsOf rest := by
        unfold langsOf
        rw [List.filterMap_cons]
      rw [hlangs]

/-! ## Claim C9 -/

/-- C9 counterexample: with two html elements carrying lang attributes
the language field holds the second value, "fr", while the claim says
the first occurrence, "en", wins; the handler overwrites on every
occurrence. -/
theorem c9_language_counterexample :
    (parse_html [.startTag "html" [("lang", "en")],
      .startTag "html" [("lang", "fr")]]).language = some "fr" ∧
    (langsOf [.startTag "html" [("lang", "en")],
      .startTag "html" [("lang", "fr")]]).head? = some "en" ∧
    (parse_html [.startTag "html" [("lang", "en")],
      .startTag "html" [("lang", "fr")]]).language ≠
    (langsOf [.startTag "html" [("lang", "en")],
      .startTag "html" [("lang", "fr")]]).head? := by
  refine ⟨by decide, by decide, by decide⟩

/-- C9 amended: the language field equals the lang attribute of the
last html element carrying one: the last occurrence wins, not the
first. -/
theorem c9_language_last (toks : List Tok) :
    (parse_html toks).language = (langsOf toks).getLast? := by
  unfold parse_html
  rw [foldl_lang]
  unfold mergeLang
  cases (langsOf toks).getLast? with
  | none => rfl
  | some l => rfl

end WebCrawler
